import Mathlib

set_option maxHeartbeats 1000000
set_option maxRecDepth 10000

/-!
Verification of the chunking engine of `src/backend/code_parser.py`.

The Python source is shallowly embedded below.  Conventions of the embedding:

* A file's text is a `String`; Python `content.split('\n')` is `splitLines`,
  Python `'\n'.join(...)` is `joinLines`, both defined from first principles
  over `String.data` so that they are easy to reason about and to evaluate.
* Python `int` is `Int`; 1-based line numbers, which the source only ever
  builds from positive loop counters, are `Nat` (for the degenerate
  configurations with non-positive `max_chunk_size`, where Python could store
  a negative `end_line` computed from a negative slice bound, the `Int.toNat`
  clamp below clamps them to `0`; no theorem in this file is about those
  configurations except the divergence theorems, whose statements do not
  inspect the clamped fields).
* Python regular expressions are embedded as explicit character scanners:
  `\s` and `str.strip` use the ASCII whitespace characters, `\w` the ASCII
  word characters (the sources and all concrete inputs are ASCII).
* The stateful `for` loops of `chunk_python` / `chunk_javascript` are explicit
  step functions over state records, iterated by structural recursion; the
  `while` loop of `chunk_by_lines` is embedded with explicit fuel and returns
  `none` exactly when the Python loop fails to terminate within the fuel;
  the wrapper passes fuel `lines.length`, enough for every terminating run.
* File system traversal (`parse_repository`) is embedded over an explicit
  association list of (relative path, file text) pairs, in traversal order;
  reading a file never fails in the model (contents are given directly).
-/

/-! ## Python string primitives -/

/-- ASCII whitespace, as recognised by Python `str.strip` and `re` `\s`. -/
def pyIsSpace (c : Char) : Bool :=
  c = ' ' || c = '\t' || c = '\n' || c = '\r' || c = '\x0b' || c = '\x0c'

/-- ASCII word character, as recognised by `re` `\w`. -/
def pyIsWordChar (c : Char) : Bool :=
  c.isAlpha || c.isDigit || c = '_'

/-- Python `line.lstrip()`. -/
def pyLstrip (s : String) : String := String.mk (s.data.dropWhile pyIsSpace)

/-- Python `not s.strip()`: `true` iff `s` is empty or whitespace-only. -/
def pyBlank (s : String) : Bool := s.data.all pyIsSpace

/-- Python `s.strip().split()[0]`, the first whitespace-delimited word of `s`
(total model: returns `""` where Python would raise `IndexError` on a blank
string, a case the source never reaches). -/
def pyFirstWord (s : String) : String :=
  String.mk ((s.data.dropWhile pyIsSpace).takeWhile (fun c => !pyIsSpace c))

/-- Python `s.count(c)` for a single-character needle. -/
def countChar (c : Char) (s : String) : Nat := (s.data.filter (· = c)).length

/-- Python `c in s` for a single character. -/
def strContainsChar (s : String) (c : Char) : Bool := s.data.contains c

/-- Python `s.lower()` (ASCII model). -/
def pyLower (s : String) : String := String.mk (s.data.map Char.toLower)

def splitOnCharAux (sep : Char) : List Char → List Char → List String
  | [], acc => [String.mk acc]
  | c :: rest, acc =>
    if c = sep then String.mk acc :: splitOnCharAux sep rest []
    else splitOnCharAux sep rest (acc ++ [c])

/-- Python `s.split(sep)` for a single-character separator. -/
def splitOnChar (sep : Char) (s : String) : List String := splitOnCharAux sep s.data []

/-- Python `content.split('\n')`. -/
def splitLines (s : String) : List String := splitOnChar '\n' s

/-- Python `'\n'.join(ls)`. -/
def joinLines : List String → String
  | [] => ""
  | [l] => l
  | l :: l2 :: ls => l ++ "\n" ++ joinLines (l2 :: ls)

/-- The 1-based line `n` of `lines` (`""` out of range). -/
def lineAt (lines : List String) (n : Nat) : String := lines.getD (n - 1) ""

/-- The newline-join of the 1-based inclusive line range `[s, e]` of `lines`. -/
def joinRange (lines : List String) (s e : Nat) : String :=
  joinLines ((lines.take e).drop (s - 1))

/-- Python list slice `l[i:e]` with `int` indices (negative indices count from
the end, out-of-range indices are clamped). -/
def pySlice (l : List String) (i e : Int) : List String :=
  let n : Int := l.length
  let i' := (if i < 0 then max (n + i) 0 else min i n).toNat
  let e' := (if e < 0 then max (n + e) 0 else min e n).toNat
  (l.take e').drop i'

/-! ## The regular expressions of the source, as character scanners -/

/-- Matches `kw` followed by `\s+` followed by `\w`, at the start of `l`;
the common core of the declaration patterns in the source. -/
def kwThenIdent (kw : String) (l : List Char) : Bool :=
  kw.data.isPrefixOf l &&
    (match l.drop kw.length with
     | [] => false
     | c :: rest =>
       pyIsSpace c &&
         (match (c :: rest).dropWhile pyIsSpace with
          | [] => false
          | d :: _ => pyIsWordChar d))

/-- `re.match(r'^(def|class)\s+(\w+)', s)` of `chunk_python` (applied by the
source to the already left-stripped line). -/
def pyDefMatch (s : String) : Bool :=
  kwThenIdent "def" s.data || kwThenIdent "class" s.data

/-- Python `line.startswith(' ' * n)`. -/
def startsWithSpaces (line : String) (n : Nat) : Bool :=
  (List.replicate n ' ').isPrefixOf line.data

/-- Consume the optional regex group `(kw\s+)?`.  For the keywords of the
source, consuming the group whenever it is present agrees with backtracking:
a line whose head is `kw` followed by whitespace can never match the rest of
the pattern without consuming the group. -/
def jsOptKw (kw : String) (l : List Char) : List Char :=
  if kw.data.isPrefixOf l then
    match l.drop kw.length with
    | c :: rest => if pyIsSpace c then (c :: rest).dropWhile pyIsSpace else l
    | [] => l
  else l

/-- `re.match(r'^\s*(export\s+)?(async\s+)?(function|const|let|var)\s+\w+', line)`
of `chunk_javascript`. -/
def jsFuncMatch (line : String) : Bool :=
  let l0 := line.data.dropWhile pyIsSpace
  let l1 := jsOptKw "export" l0
  let l2 := jsOptKw "async" l1
  kwThenIdent "function" l2 || kwThenIdent "const" l2 ||
    kwThenIdent "let" l2 || kwThenIdent "var" l2

/-- `re.match(r'^\s*(export\s+)?(default\s+)?class\s+\w+', line)` of
`chunk_javascript`. -/
def jsClassMatch (line : String) : Bool :=
  let l0 := line.data.dropWhile pyIsSpace
  let l1 := jsOptKw "export" l0
  let l2 := jsOptKw "default" l1
  kwThenIdent "class" l2

/-! ## The data model -/

/-- The `CodeChunk` class of the source. -/
structure CodeChunk where
  content : String
  file_path : String
  start_line : Nat
  end_line : Nat
  language : String
  chunk_type : String
deriving DecidableEq, Repr

/-- The configuration of `CodeParser.__init__` (which stores its two arguments
and performs no validation; Python defaults are `1000` and `100`). -/
structure CodeParser where
  max_chunk_size : Int
  overlap : Int
deriving DecidableEq, Repr

/-- `CodeParser.LANGUAGE_MAP`. -/
def LANGUAGE_MAP : List (String × String) :=
  [(".py", "python"), (".js", "javascript"), (".jsx", "javascript"),
   (".ts", "typescript"), (".tsx", "typescript"), (".java", "java"),
   (".cpp", "cpp"), (".c", "c"), (".h", "c"), (".hpp", "cpp"),
   (".cs", "csharp"), (".go", "go"), (".rs", "rust"), (".rb", "ruby"),
   (".php", "php"), (".swift", "swift"), (".kt", "kotlin"), (".r", "r"),
   (".sql", "sql"), (".sh", "bash"), (".yaml", "yaml"), (".yml", "yaml"),
   (".json", "json"), (".xml", "xml"), (".html", "html"), (".css", "css"),
   (".md", "markdown")]

/-- `CodeParser.IGNORE_PATTERNS`. -/
def IGNORE_PATTERNS : List String :=
  ["__pycache__", "node_modules", ".git", ".venv", "venv",
   "dist", "build", ".next", ".cache", "target", "bin", "obj",
   ".pytest_cache", "coverage", ".idea", ".vscode"]

/-- `CodeParser.SKIP_EXTENSIONS`. -/
def SKIP_EXTENSIONS : List String :=
  [".pyc", ".pyo", ".so", ".dylib", ".dll", ".exe", ".bin",
   ".jpg", ".jpeg", ".png", ".gif", ".pdf", ".zip", ".tar",
   ".gz", ".mp4", ".mp3", ".lock", ".min.js", ".map"]

/-- The final path component (`pathlib.PurePath.name` for the plain relative
paths this model covers). -/
def pathName (p : String) : String := (splitOnChar '/' p).getLastD ""

/-- `pathlib.PurePath.suffix`: `name[i:]` for the last `i` with `name[i] = '.'`
when `0 < i < len(name) - 1`, else `""`. -/
def pySuffix (p : String) : String :=
  let name := (pathName p).data
  match name.reverse.findIdx? (· = '.') with
  | none => ""
  | some r =>
    let i := name.length - 1 - r
    if 0 < i ∧ i < name.length - 1 then String.mk (name.drop i) else ""

/-- `CodeParser.get_language`: exact-match dictionary lookup of the lowered
suffix, default `"text"`. -/
def get_language (file_path : String) : String :=
  (List.lookup (pyLower (pySuffix file_path)) LANGUAGE_MAP).getD "text"

/-- `CodeParser.should_ignore`: some path segment is an ignore pattern. -/
def should_ignore (p : String) : Bool :=
  IGNORE_PATTERNS.any (fun pat => (splitOnChar '/' p).contains pat)

/-! ## chunk_python -/

/-- The loop state of `chunk_python`. -/
structure PyState where
  chunks : List CodeChunk
  current_chunk : List String
  current_start : Nat
  indent_level : Nat
  in_definition : Bool
deriving Repr

/-- One iteration of the `for i, line in enumerate(lines, 1)` loop of
`chunk_python`. -/
def pyStep (fp lang : String) (i : Nat) (line : String) (s : PyState) : PyState :=
  let stripped := pyLstrip line
  let m := pyDefMatch stripped
  if m && !s.in_definition then
    let chunks :=
      if s.current_chunk.isEmpty then s.chunks
      else if pyBlank (joinLines s.current_chunk) then s.chunks
      else s.chunks ++
        [⟨joinLines s.current_chunk, fp, s.current_start, i - 1, lang, "block"⟩]
    ⟨chunks, [line], i, line.length - stripped.length, true⟩
  else if s.in_definition then
    let cur := s.current_chunk ++ [line]
    if !stripped.isEmpty && !startsWithSpaces line (s.indent_level + 1) &&
        decide (s.current_start < i) && m then
      let chunks :=
        if pyBlank (joinLines cur.dropLast) then s.chunks
        else s.chunks ++
          [⟨joinLines cur.dropLast, fp, s.current_start, i - 1, lang,
            pyFirstWord (cur.headD "")⟩]
      ⟨chunks, [line], i, line.length - stripped.length, true⟩
    else
      ⟨s.chunks, cur, s.current_start, s.indent_level, true⟩
  else
    ⟨s.chunks, s.current_chunk ++ [line], s.current_start, s.indent_level, false⟩

/-- The whole loop of `chunk_python`, starting at 1-based index `i`. -/
def pyLoop (fp lang : String) : Nat → List String → PyState → PyState
  | _, [], s => s
  | i, line :: rest, s => pyLoop fp lang (i + 1) rest (pyStep fp lang i line s)

/-- `chunk_python` up to and including the final flush (the value of the local
`chunks` at line 243 of the source, before the small-file rule). -/
def pyCoreChunks (content fp lang : String) : List CodeChunk :=
  let lines := splitLines content
  let st := pyLoop fp lang 1 lines ⟨[], [], 1, 0, false⟩
  if st.current_chunk.isEmpty then st.chunks
  else if pyBlank (joinLines st.current_chunk) then st.chunks
  else st.chunks ++
    [⟨joinLines st.current_chunk, fp, st.current_start, lines.length, lang, "block"⟩]

/-- `CodeParser.chunk_python` (note: the small-file test `len(content) <
self.max_chunk_size` measures `content` in characters). -/
def chunk_python (content fp lang : String) (max_chunk_size : Int) : List CodeChunk :=
  let lines := splitLines content
  let chunks := pyCoreChunks content fp lang
  if chunks.isEmpty || (chunks.length == 1 && decide ((content.length : Int) < max_chunk_size)) then
    [⟨content, fp, 1, lines.length, lang, "file"⟩]
  else chunks

/-! ## chunk_javascript -/

/-- The loop state of `chunk_javascript`. -/
structure JsState where
  chunks : List CodeChunk
  current_chunk : List String
  current_start : Nat
  brace_count : Int
  in_definition : Bool
deriving Repr

/-- One iteration of the `for i, line in enumerate(lines, 1)` loop of
`chunk_javascript`. -/
def jsStep (fp lang : String) (i : Nat) (line : String) (s : JsState) : JsState :=
  if jsFuncMatch line || jsClassMatch line then
    let chunks :=
      if !s.current_chunk.isEmpty && !s.in_definition then
        if pyBlank (joinLines s.current_chunk) then s.chunks
        else s.chunks ++
          [⟨joinLines s.current_chunk, fp, s.current_start, i - 1, lang, "block"⟩]
      else s.chunks
    ⟨chunks, [line], i, (countChar '{' line : Int) - (countChar '}' line : Int), true⟩
  else
    let cur := s.current_chunk ++ [line]
    if s.in_definition then
      let b := s.brace_count + (countChar '{' line : Int) - (countChar '}' line : Int)
      if b == 0 && strContainsChar (String.join cur) '{' then
        let chunks :=
          if pyBlank (joinLines cur) then s.chunks
          else s.chunks ++ [⟨joinLines cur, fp, s.current_start, i, lang, "function"⟩]
        ⟨chunks, [], i + 1, b, false⟩
      else ⟨s.chunks, cur, s.current_start, b, true⟩
    else ⟨s.chunks, cur, s.current_start, s.brace_count, false⟩

/-- The whole loop of `chunk_javascript`, starting at 1-based index `i`. -/
def jsLoop (fp lang : String) : Nat → List String → JsState → JsState
  | _, [], s => s
  | i, line :: rest, s => jsLoop fp lang (i + 1) rest (jsStep fp lang i line s)

/-- `chunk_javascript` up to and including the final flush (the value of the
local `chunks` at line 321 of the source, before the empty fallback). -/
def jsCoreChunks (content fp lang : String) : List CodeChunk :=
  let lines := splitLines content
  let st := jsLoop fp lang 1 lines ⟨[], [], 1, 0, false⟩
  if st.current_chunk.isEmpty then st.chunks
  else if pyBlank (joinLines st.current_chunk) then st.chunks
  else st.chunks ++
    [⟨joinLines st.current_chunk, fp, st.current_start, lines.length, lang, "block"⟩]

/-- `CodeParser.chunk_javascript` (no small-file rule, only the empty
fallback). -/
def chunk_javascript (content fp lang : String) : List CodeChunk :=
  let lines := splitLines content
  let chunks := jsCoreChunks content fp lang
  if chunks.isEmpty then [⟨content, fp, 1, lines.length, lang, "file"⟩]
  else chunks

/-! ## chunk_by_lines -/

/-- The `while i < len(lines)` loop of `chunk_by_lines`, with explicit fuel.
The result is `none` exactly when the Python loop performs more iterations
than `fuel` (in particular, for every fuel, when it diverges). -/
def chunkByLinesAux (lines : List String) (fp lang : String) (mx ov : Int) :
    Nat → Int → List CodeChunk → Option (List CodeChunk) := fun fuel i acc =>
  if i < (lines.length : Int) then
    match fuel with
    | 0 => none
    | fuel' + 1 =>
      let e := min (i + mx) (lines.length : Int)
      chunkByLinesAux lines fp lang mx ov fuel' (i + (mx - ov))
        (acc ++ [⟨joinLines (pySlice lines i e), fp, (i + 1).toNat, e.toNat, lang, "block"⟩])
  else some acc

/-- `CodeParser.chunk_by_lines`.  The loop advances its index by at least one
per iteration whenever it terminates at all, so fuel `lines.length` is enough
for every terminating configuration, and the result is `none` exactly when the
Python loop diverges. -/
def chunk_by_lines (content fp lang : String) (mx ov : Int) : Option (List CodeChunk) :=
  let lines := splitLines content
  if (lines.length : Int) ≤ mx then
    some [⟨content, fp, 1, lines.length, lang, "file"⟩]
  else chunkByLinesAux lines fp lang mx ov lines.length 0 []

/-- Number of sliding windows over `total` lines with positive stride `step`:
the least `n` with `n * step ≥ total`. -/
def numWindows (total step : Nat) : Nat := (total + step - 1) / step

/-- The `k`-th sliding window (0-based) of width `mxN` and stride `stepN`:
a `block` chunk for lines `k * stepN + 1 .. min (k * stepN + mxN) total`. -/
def windowChunkAt (lines : List String) (fp lang : String) (mxN stepN k : Nat) : CodeChunk :=
  let i := k * stepN
  let e := min (i + mxN) lines.length
  ⟨joinLines ((lines.take e).drop i), fp, i + 1, e, lang, "block"⟩

/-- Modelled from the spec (§4.6 WindowChunker): slide a fixed-size window of
`mxN` lines across the file, advancing by `stepN = max_chunk_size - overlap`
lines each step, emitting one `block` chunk per window, the final window
clipped at end-of-file. -/
def windowSpec (lines : List String) (fp lang : String) (mxN stepN : Nat) : List CodeChunk :=
  (List.range' 0 (numWindows lines.length stepN)).map
    (windowChunkAt lines fp lang mxN stepN)

/-! ## parse_file and parse_repository -/

/-- `CodeParser.parse_file`, with the file's text supplied directly (the
source's `open(...).read(..., errors='ignore')` cannot fail in the model).
`none` propagates divergence of `chunk_by_lines`. -/
def parse_file (p : CodeParser) (content rel_path : String) : Option (List CodeChunk) :=
  if pyBlank content then some []
  else
    let language := get_language rel_path
    if language == "python" then
      some (chunk_python content rel_path language p.max_chunk_size)
    else if language == "javascript" || language == "typescript" then
      some (chunk_javascript content rel_path language)
    else chunk_by_lines content rel_path language p.max_chunk_size p.overlap

/-- `CodeParser.parse_repository` over an explicit list of
(relative path, file text) pairs in traversal order. -/
def parse_repository (p : CodeParser) : List (String × String) → Option (List CodeChunk)
  | [] => some []
  | (rel, content) :: rest =>
    if should_ignore rel || SKIP_EXTENSIONS.contains (pyLower (pySuffix rel)) then
      parse_repository p rest
    else
      match parse_file p content rel, parse_repository p rest with
      | some cs, some csr => some (cs ++ csr)
      | _, _ => none

/-! ## Derived predicates used by the claims -/

/-- `1 ≤ start_line ≤ end_line ≤ total` for one chunk. -/
def boundsOk (total : Nat) (c : CodeChunk) : Bool :=
  decide (1 ≤ c.start_line) && decide (c.start_line ≤ c.end_line) &&
    decide (c.end_line ≤ total)

/-- The chunks' line ranges are strictly increasing and pairwise disjoint,
every range nonempty, all starts above `lo`. -/
def rangesChain (lo : Nat) : List CodeChunk → Bool
  | [] => true
  | c :: cs =>
    decide (lo < c.start_line) && decide (c.start_line ≤ c.end_line) &&
      rangesChain c.end_line cs

/-- The last `end_line` of the list (`lo` if empty). -/
def lastEndD (lo : Nat) : List CodeChunk → Nat
  | [] => lo
  | c :: cs => lastEndD c.end_line cs

/-- Every line `1..total` lies in some chunk's `[start_line, end_line]`. -/
def coversAllLines (total : Nat) (cs : List CodeChunk) : Bool :=
  (List.range' 1 total).all fun j =>
    cs.any fun c => decide (c.start_line ≤ j) && decide (j ≤ c.end_line)

/-- Each consecutive pair of chunks has starts exactly `step` apart. -/
def startsStepped (step : Nat) : List CodeChunk → Bool
  | c :: c2 :: rest =>
    decide (c2.start_line = c.start_line + step) && startsStepped step (c2 :: rest)
  | _ => true

/-! ## Basic lemmas about the string primitives -/

lemma joinLines_cons (x : String) (xs : List String) (h : xs ≠ []) :
    joinLines (x :: xs) = x ++ "\n" ++ joinLines xs := by
  cases xs with
  | nil => exact absurd rfl h
  | cons y ys => rfl

lemma splitOnCharAux_ne_nil (sep : Char) :
    ∀ (cs acc : List Char), splitOnCharAux sep cs acc ≠ []
  | [], acc => by simp [splitOnCharAux]
  | c :: rest, acc => by
    by_cases h : c = sep
    · simp [splitOnCharAux, h]
    · simpa [splitOnCharAux, h] using splitOnCharAux_ne_nil sep rest (acc ++ [c])

lemma splitLines_ne_nil (s : String) : splitLines s ≠ [] :=
  splitOnCharAux_ne_nil '\n' s.data []

lemma splitLines_length_pos (s : String) : 0 < (splitLines s).length :=
  List.length_pos.mpr (splitLines_ne_nil s)

lemma joinLines_splitOnCharAux :
    ∀ (cs acc : List Char),
      joinLines (splitOnCharAux '\n' cs acc) = String.mk acc ++ String.mk cs
  | [], acc => by simp [splitOnCharAux, joinLines]
  | c :: rest, acc => by
    by_cases h : c = '\n'
    · rw [splitOnCharAux, if_pos h,
        joinLines_cons _ _ (splitOnCharAux_ne_nil '\n' rest []),
        joinLines_splitOnCharAux rest []]
      subst h
      show String.mk acc ++ String.mk ['\n'] ++ (String.mk [] ++ String.mk rest) = _
      show String.mk ((acc ++ ['\n']) ++ ([] ++ rest)) = String.mk (acc ++ '\n' :: rest)
      simp
    · rw [splitOnCharAux, if_neg h, joinLines_splitOnCharAux rest (acc ++ [c])]
      show String.mk ((acc ++ [c]) ++ rest) = String.mk (acc ++ c :: rest)
      simp

/-- `'\n'.join(content.split('\n')) = content`: splitting is inverted by
joining. -/
lemma joinLines_splitLines (s : String) : joinLines (splitLines s) = s := by
  have := joinLines_splitOnCharAux s.data []
  simpa [splitLines, splitOnChar] using this

/-- The whole-file range join reproduces the file. -/
lemma joinRange_whole (s : String) :
    joinRange (splitLines s) 1 (splitLines s).length = s := by
  simp [joinRange, List.take_length, joinLines_splitLines]

/-! ## Lemmas about range chains -/

lemma rangesChain_append (c : CodeChunk) :
    ∀ (cs : List CodeChunk) (lo : Nat), rangesChain lo cs = true →
      lastEndD lo cs < c.start_line → c.start_line ≤ c.end_line →
      rangesChain lo (cs ++ [c]) = true
  | [], lo, _, h2, h3 => by
    simp_all [rangesChain, lastEndD]
  | d :: ds, lo, h1, h2, h3 => by
    simp only [rangesChain, Bool.and_eq_true, decide_eq_true_eq] at h1
    simp only [List.cons_append, rangesChain, Bool.and_eq_true, decide_eq_true_eq]
    exact ⟨⟨h1.1.1, h1.1.2⟩, rangesChain_append c ds d.end_line h1.2 h2 h3⟩

lemma lastEndD_append (c : CodeChunk) :
    ∀ (cs : List CodeChunk) (lo : Nat), lastEndD lo (cs ++ [c]) = c.end_line
  | [], _lo => rfl
  | d :: ds, _lo => lastEndD_append c ds d.end_line

lemma lastEndD_le_of_chain :
    ∀ (cs : List CodeChunk) (lo : Nat), rangesChain lo cs = true →
      lo ≤ lastEndD lo cs
  | [], lo, _ => le_refl lo
  | d :: ds, lo, h => by
    simp only [rangesChain, Bool.and_eq_true, decide_eq_true_eq] at h
    have := lastEndD_le_of_chain ds d.end_line h.2
    simp only [lastEndD]
    omega

lemma rangesChain_mem_bounds :
    ∀ (cs : List CodeChunk) (lo : Nat), rangesChain lo cs = true →
      ∀ c ∈ cs, lo < c.start_line ∧ c.start_line ≤ c.end_line ∧
        c.end_line ≤ lastEndD lo cs
  | [], lo, _, c, hc => absurd hc (List.not_mem_nil c)
  | d :: ds, lo, h, c, hc => by
    simp only [rangesChain, Bool.and_eq_true, decide_eq_true_eq] at h
    rcases List.mem_cons.mp hc with rfl | hc'
    · have := lastEndD_le_of_chain ds c.end_line h.2
      simp only [lastEndD]
      omega
    · have := rangesChain_mem_bounds ds d.end_line h.2 c hc'
      simp only [lastEndD]
      omega

/-! ## The window chunker refines the spec's window description -/

lemma numWindows_le_iff (total step k : Nat) (h : 0 < step) :
    numWindows total step ≤ k ↔ total ≤ k * step := by
  unfold numWindows
  rw [Nat.div_le_iff_le_mul_add_pred h, Nat.mul_comm step k]
  generalize k * step = p
  omega

lemma lt_numWindows_iff (total step k : Nat) (h : 0 < step) :
    k < numWindows total step ↔ k * step < total := by
  rw [← Nat.not_le, ← Nat.not_le, numWindows_le_iff total step k h]

/-- Python slicing at in-range nonnegative `int` indices is take-drop. -/
lemma pySlice_natCast (l : List String) (i e : Nat) (hi : i ≤ l.length)
    (he : e ≤ l.length) :
    pySlice l (i : Int) (e : Int) = (l.take e).drop i := by
  unfold pySlice
  have h1 : ¬ ((i : Int) < 0) := by omega
  have h2 : ¬ ((e : Int) < 0) := by omega
  simp only [h1, if_false, h2]
  have h3 : min (i : Int) (l.length : Int) = (i : Int) := by omega
  have h4 : min (e : Int) (l.length : Int) = (e : Int) := by omega
  rw [h3, h4, Int.toNat_ofNat, Int.toNat_ofNat]

lemma chunkByLinesAux_eq_windowSpec (lines : List String) (fp lang : String)
    (mx ov : Int) (h1 : 0 ≤ ov) (h2 : ov < mx) :
    ∀ (m fuel k : Nat) (acc : List CodeChunk),
      m + k = numWindows lines.length (mx - ov).toNat →
      m ≤ fuel →
      chunkByLinesAux lines fp lang mx ov fuel ((k * (mx - ov).toNat : Nat) : Int) acc =
        some (acc ++ (List.range' k m).map
          (windowChunkAt lines fp lang mx.toNat (mx - ov).toNat))
  | 0, fuel, k, acc, hm, _ => by
    have hstep : 0 < (mx - ov).toNat := by omega
    have hk : lines.length ≤ k * (mx - ov).toNat :=
      (numWindows_le_iff _ _ _ hstep).mp (by omega)
    conv_lhs => unfold chunkByLinesAux
    rw [if_neg (by exact_mod_cast Nat.not_lt.mpr hk)]
    simp
  | m + 1, fuel, k, acc, hm, hfuel => by
    have hstep : 0 < (mx - ov).toNat := by omega
    have hcast : ((mx - ov).toNat : Int) = mx - ov := Int.toNat_of_nonneg (by omega)
    have hmx0 : ((mx.toNat : Int)) = mx := Int.toNat_of_nonneg (by omega)
    have hk : k * (mx - ov).toNat < lines.length :=
      (lt_numWindows_iff lines.length (mx - ov).toNat k hstep).mp (by omega)
    obtain ⟨fuel', rfl⟩ : ∃ f, fuel = f + 1 := ⟨fuel - 1, by omega⟩
    conv_lhs => unfold chunkByLinesAux
    rw [if_pos (by exact_mod_cast hk)]
    show chunkByLinesAux lines fp lang mx ov fuel'
        (((k * (mx - ov).toNat : Nat) : Int) + (mx - ov))
        (acc ++ [⟨joinLines (pySlice lines ((k * (mx - ov).toNat : Nat) : Int)
            (min (((k * (mx - ov).toNat : Nat) : Int) + mx) (lines.length : Int))), fp,
          (((k * (mx - ov).toNat : Nat) : Int) + 1).toNat,
          (min (((k * (mx - ov).toNat : Nat) : Int) + mx) (lines.length : Int)).toNat,
          lang, "block"⟩]) = _
    have hE : min (((k * (mx - ov).toNat : Nat) : Int) + mx) (lines.length : Int)
        = ((min (k * (mx - ov).toNat + mx.toNat) lines.length : Nat) : Int) := by
      rw [Nat.cast_min, Nat.cast_add, hmx0]
    have harg : (((k * (mx - ov).toNat : Nat) : Int) + (mx - ov))
        = (((k + 1) * (mx - ov).toNat : Nat) : Int) := by
      push_cast [hcast]
      ring
    have hchunk : (⟨joinLines (pySlice lines ((k * (mx - ov).toNat : Nat) : Int)
            (min (((k * (mx - ov).toNat : Nat) : Int) + mx) (lines.length : Int))), fp,
          (((k * (mx - ov).toNat : Nat) : Int) + 1).toNat,
          (min (((k * (mx - ov).toNat : Nat) : Int) + mx) (lines.length : Int)).toNat,
          lang, "block"⟩ : CodeChunk)
        = windowChunkAt lines fp lang mx.toNat (mx - ov).toNat k := by
      have hs : (((k * (mx - ov).toNat : Nat) : Int) + 1).toNat
          = k * (mx - ov).toNat + 1 := by omega
      rw [hE, pySlice_natCast lines _ _ (le_of_lt hk) (Nat.min_le_right _ _), hs,
        Int.toNat_ofNat]
      rfl
    rw [harg, hchunk, List.range'_succ, List.map_cons]
    rw [chunkByLinesAux_eq_windowSpec lines fp lang mx ov h1 h2 m fuel' (k + 1)
      (acc ++ [windowChunkAt lines fp lang mx.toNat (mx - ov).toNat k])
      (by omega) (by omega)]
    simp

/-- Under a valid configuration the source's `chunk_by_lines` terminates and
equals the spec's description: one whole-file chunk for small files, else the
sliding windows of `windowSpec`. -/
lemma chunk_by_lines_eq_windowSpec (content fp lang : String) (mx ov : Int)
    (h1 : 0 ≤ ov) (h2 : ov < mx) :
    chunk_by_lines content fp lang mx ov =
      some (if ((splitLines content).length : Int) ≤ mx then
              [⟨content, fp, 1, (splitLines content).length, lang, "file"⟩]
            else windowSpec (splitLines content) fp lang mx.toNat (mx - ov).toNat) := by
  unfold chunk_by_lines
  by_cases h : ((splitLines content).length : Int) ≤ mx
  · rw [if_pos h, if_pos h]
  · rw [if_neg h, if_neg h]
    have hstep : 0 < (mx - ov).toNat := by omega
    have hfuel : numWindows (splitLines content).length (mx - ov).toNat
        ≤ (splitLines content).length := by
      rw [numWindows_le_iff _ _ _ hstep]
      calc (splitLines content).length
          = (splitLines content).length * 1 := (Nat.mul_one _).symm
        _ ≤ (splitLines content).length * (mx - ov).toNat :=
            Nat.mul_le_mul_left _ hstep
    have key := chunkByLinesAux_eq_windowSpec (splitLines content) fp lang mx ov h1 h2
      (numWindows (splitLines content).length (mx - ov).toNat)
      (splitLines content).length 0 [] (by omega) hfuel
    simpa [windowSpec] using key

/-- Every windowSpec chunk is `windowChunkAt` of some window index. -/
lemma mem_windowSpec {lines : List String} {fp lang : String} {mxN stepN : Nat}
    {c : CodeChunk} (h : c ∈ windowSpec lines fp lang mxN stepN) :
    ∃ k, k < numWindows lines.length stepN ∧
      c = windowChunkAt lines fp lang mxN stepN k := by
  unfold windowSpec at h
  obtain ⟨k, hk, rfl⟩ := List.mem_map.mp h
  exact ⟨k, by simpa using (List.mem_range'_1.mp hk).2, rfl⟩

/-- Bounds of a single window. -/
lemma windowChunkAt_bounds (lines : List String) (fp lang : String)
    (mxN stepN k : Nat) (hmx : 0 < mxN) (hk : k * stepN < lines.length) :
    1 ≤ (windowChunkAt lines fp lang mxN stepN k).start_line ∧
    (windowChunkAt lines fp lang mxN stepN k).start_line
      ≤ (windowChunkAt lines fp lang mxN stepN k).end_line ∧
    (windowChunkAt lines fp lang mxN stepN k).end_line ≤ lines.length := by
  unfold windowChunkAt
  simp only
  omega

/-- Content fidelity of a single window. -/
lemma windowChunkAt_content (lines : List String) (fp lang : String)
    (mxN stepN k : Nat) :
    (windowChunkAt lines fp lang mxN stepN k).content
      = joinRange lines (windowChunkAt lines fp lang mxN stepN k).start_line
          (windowChunkAt lines fp lang mxN stepN k).end_line := by
  unfold windowChunkAt joinRange
  simp only [Nat.add_sub_cancel]

/-- Coverage: when the stride is positive and at most the width, every line of
the file lies in some window. -/
lemma windowSpec_covers (lines : List String) (fp lang : String)
    (mxN stepN : Nat) (hstep : 0 < stepN) (hmx : stepN ≤ mxN) :
    ∀ j, 1 ≤ j → j ≤ lines.length →
      ∃ c ∈ windowSpec lines fp lang mxN stepN,
        c.start_line ≤ j ∧ j ≤ c.end_line := by
  intro j hj1 hj2
  have h6 := Nat.div_add_mod (j - 1) stepN
  have h5 : (j - 1) % stepN < stepN := Nat.mod_lt _ hstep
  rw [Nat.mul_comm] at h6
  have key : (j - 1) / stepN * stepN ≤ j - 1 ∧
      j - 1 < (j - 1) / stepN * stepN + stepN := by
    generalize (j - 1) / stepN * stepN = p at h6 ⊢
    generalize (j - 1) % stepN = r at h6 h5
    omega
  refine ⟨windowChunkAt lines fp lang mxN stepN ((j - 1) / stepN), ?_, ?_, ?_⟩
  · unfold windowSpec
    refine List.mem_map.mpr ⟨(j - 1) / stepN, ?_, rfl⟩
    refine List.mem_range'_1.mpr ⟨Nat.zero_le _, ?_⟩
    simp only [Nat.zero_add]
    rw [lt_numWindows_iff _ _ _ hstep]
    exact Nat.lt_of_le_of_lt key.1 (by omega)
  · unfold windowChunkAt
    simp only
    obtain ⟨hA, hB⟩ := key
    generalize (j - 1) / stepN * stepN = p at hA hB ⊢
    omega
  · unfold windowChunkAt
    simp only
    obtain ⟨hA, hB⟩ := key
    generalize (j - 1) / stepN * stepN = p at hA hB ⊢
    rw [Nat.le_min]
    constructor <;> omega

/-- Consecutive windows advance by exactly the stride. -/
lemma windowSpec_stepped (lines : List String) (fp lang : String)
    (mxN stepN : Nat) :
    startsStepped stepN (windowSpec lines fp lang mxN stepN) = true := by
  unfold windowSpec
  generalize numWindows lines.length stepN = n
  suffices h : ∀ (m k : Nat),
      startsStepped stepN ((List.range' k m).map
        (windowChunkAt lines fp lang mxN stepN)) = true from h n 0
  intro m
  induction m with
  | zero => intro k; rfl
  | succ m ih =>
    intro k
    cases m with
    | zero => rfl
    | succ m' =>
      rw [List.range'_succ, List.map_cons, List.range'_succ, List.map_cons]
      show (decide ((windowChunkAt lines fp lang mxN stepN (k + 1)).start_line
          = (windowChunkAt lines fp lang mxN stepN k).start_line + stepN) &&
          startsStepped stepN _) = true
      rw [Bool.and_eq_true, decide_eq_true_eq]
      constructor
      · unfold windowChunkAt
        simp only
        ring
      · have := ih (k + 1)
        rw [List.range'_succ, List.map_cons] at this
        exact this

/-- With a non-positive stride the window loop never terminates: the index
never increases, so every amount of fuel is exhausted. -/
lemma chunkByLinesAux_diverges (lines : List String) (fp lang : String)
    (mx ov : Int) (hstep : mx - ov ≤ 0) :
    ∀ (fuel : Nat) (i : Int) (acc : List CodeChunk), i < (lines.length : Int) →
      chunkByLinesAux lines fp lang mx ov fuel i acc = none
  | 0, i, acc, hi => by
    conv_lhs => unfold chunkByLinesAux
    rw [if_pos hi]
  | fuel + 1, i, acc, hi => by
    conv_lhs => unfold chunkByLinesAux
    rw [if_pos hi]
    exact chunkByLinesAux_diverges lines fp lang mx ov hstep fuel _ _ (by omega)

/-! ## List helper lemmas for the structural chunkers -/

lemma forall_mem_append_singleton {P : CodeChunk → Prop} {cs : List CodeChunk}
    {c : CodeChunk} (h1 : ∀ d ∈ cs, P d) (h2 : P c) : ∀ d ∈ cs ++ [c], P d := by
  intro d hd
  rcases List.mem_append.mp hd with h | h
  · exact h1 d h
  · rw [List.mem_singleton.mp h]; exact h2

lemma headD_append_left {a b : List String} (d : String) (h : a ≠ []) :
    (a ++ b).headD d = a.headD d := by
  cases a with
  | nil => exact absurd rfl h
  | cons x xs => rfl

/-- Head of the slice `(take k).drop m` is line `m` (0-based). -/
lemma headD_drop_take {lines : List String} {m k : Nat} (hmk : m < k) :
    ((lines.take k).drop m).headD "" = lines.getD m "" := by
  rw [List.headD_eq_head?_getD, List.head?_drop, List.getElem?_take_of_lt hmk,
    List.getD_eq_getElem?_getD]

/-- Appending the `k`-th line extends every slice that reaches the cut. -/
lemma drop_take_succ_append {lines : List String} {k : Nat} {line : String}
    (htake1 : lines.take (k + 1) = lines.take k ++ [line])
    (hk : k ≤ lines.length) {m : Nat} (hm : m ≤ k) :
    (lines.take (k + 1)).drop m = (lines.take k).drop m ++ [line] := by
  rw [htake1, List.drop_append_of_le_length]
  rw [List.length_take]
  omega

/-- A slice `(take k).drop m` is empty iff it starts at or past the cut. -/
lemma drop_take_eq_nil_iff {lines : List String} {m k : Nat} (hk : k ≤ lines.length) :
    (lines.take k).drop m = [] ↔ k ≤ m := by
  rw [List.drop_eq_nil_iff, List.length_take]
  omega

/-! ## The loop invariant of chunk_python -/

/-- Invariant of the `chunk_python` loop state after the first `k` lines have
been processed: the accumulator is exactly the slice of `lines` from
`current_start` to `k`; emitted chunks form a strictly increasing disjoint
chain below `current_start`, reproduce their line ranges verbatim, are
non-blank, and are tagged `block` exactly when their first line is not a
definition start. -/
structure PyInv (lines : List String) (k : Nat) (s : PyState) : Prop where
  hk : k ≤ lines.length
  hcur : s.current_chunk = (lines.take k).drop (s.current_start - 1)
  hcs1 : 1 ≤ s.current_start
  hcs2 : s.current_start ≤ k + 1
  hchain : rangesChain 0 s.chunks = true
  hlast : lastEndD 0 s.chunks < s.current_start
  hcontent : ∀ c ∈ s.chunks, c.content = joinRange lines c.start_line c.end_line
  hblank : ∀ c ∈ s.chunks, pyBlank c.content = false
  htype : ∀ c ∈ s.chunks,
    (pyDefMatch (pyLstrip (lineAt lines c.start_line)) = true ∧
      c.chunk_type = pyFirstWord (lineAt lines c.start_line)) ∨
    (pyDefMatch (pyLstrip (lineAt lines c.start_line)) = false ∧
      c.chunk_type = "block")
  hdef : s.in_definition = true →
    pyDefMatch (pyLstrip (lineAt lines s.current_start)) = true ∧ s.current_start ≤ k
  hnodef : s.in_definition = false → s.current_chunk ≠ [] →
    pyDefMatch (pyLstrip (lineAt lines s.current_start)) = false

lemma pyInv_init (lines : List String) : PyInv lines 0 ⟨[], [], 1, 0, false⟩ where
  hk := Nat.zero_le _
  hcur := rfl
  hcs1 := le_refl 1
  hcs2 := le_refl 1
  hchain := rfl
  hlast := Nat.zero_lt_one
  hcontent := by intro c hc; exact absurd hc (List.not_mem_nil c)
  hblank := by intro c hc; exact absurd hc (List.not_mem_nil c)
  htype := by intro c hc; exact absurd hc (List.not_mem_nil c)
  hdef := by intro h; cases h
  hnodef := by intro _ h; exact absurd rfl h

/-- Constructor for `PyInv` at a literal state, with all fields stated on the
plain components. -/
lemma pyInv_mk {lines : List String} {k : Nat} {ck : List CodeChunk}
    {cc : List String} {cs il : Nat} {indef : Bool}
    (hk : k ≤ lines.length)
    (hcur : cc = (lines.take k).drop (cs - 1))
    (hcs1 : 1 ≤ cs) (hcs2 : cs ≤ k + 1)
    (hchain : rangesChain 0 ck = true)
    (hlast : lastEndD 0 ck < cs)
    (hcontent : ∀ c ∈ ck, c.content = joinRange lines c.start_line c.end_line)
    (hblank : ∀ c ∈ ck, pyBlank c.content = false)
    (htype : ∀ c ∈ ck,
      (pyDefMatch (pyLstrip (lineAt lines c.start_line)) = true ∧
        c.chunk_type = pyFirstWord (lineAt lines c.start_line)) ∨
      (pyDefMatch (pyLstrip (lineAt lines c.start_line)) = false ∧
        c.chunk_type = "block"))
    (hdef : indef = true →
      pyDefMatch (pyLstrip (lineAt lines cs)) = true ∧ cs ≤ k)
    (hnodef : indef = false → cc ≠ [] →
      pyDefMatch (pyLstrip (lineAt lines cs)) = false) :
    PyInv lines k ⟨ck, cc, cs, il, indef⟩ :=
  ⟨hk, hcur, hcs1, hcs2, hchain, hlast, hcontent, hblank, htype, hdef, hnodef⟩

lemma pyStep_inv (fp lang : String) {lines done : List String} {line : String}
    {rest : List String} (hsplit : lines = done ++ line :: rest) {k : Nat}
    (hlen : done.length = k) {s : PyState} (inv : PyInv lines k s) :
    PyInv lines (k + 1) (pyStep fp lang (k + 1) line s) := by
  have hk1 : k + 1 ≤ lines.length := by
    subst hsplit; simp [List.length_append]; omega
  have htake : lines.take k = done := by
    subst hsplit hlen; exact List.take_left done (line :: rest)
  have htake1 : lines.take (k + 1) = lines.take k ++ [line] := by
    rw [htake]
    subst hsplit hlen
    have := @List.take_append _ done (line :: rest) 1
    simpa using this
  have hline : lineAt lines (k + 1) = line := by
    subst hsplit hlen
    unfold lineAt
    rw [Nat.add_sub_cancel, List.getD_eq_getElem?_getD,
      List.getElem?_append_right (le_refl done.length)]
    simp
  have hnewcur : [line] = (lines.take (k + 1)).drop ((k + 1) - 1) := by
    rw [Nat.add_sub_cancel, htake1, List.drop_append_of_le_length (by
      rw [List.length_take]; omega)]
    rw [List.drop_eq_nil_iff.mpr (by rw [List.length_take]; omega),
      List.nil_append]
  obtain ⟨hk, hcur, hcs1, hcs2, hchain, hlast, hcontent, hblank, htype, hdef, hnodef⟩ := inv
  simp only [pyStep]
  split
  case isTrue hcond =>
    -- a definition starts here while not inside one
    rw [Bool.and_eq_true, Bool.not_eq_true'] at hcond
    obtain ⟨hm, hindef⟩ := hcond
    split
    case isTrue hempty =>
      -- nothing accumulated: no flush
      exact pyInv_mk hk1 hnewcur (by omega) (by omega) hchain (by omega) hcontent
        hblank htype (fun _ => ⟨by rw [hline]; exact hm, le_refl _⟩)
        (fun h _ => by simp at h)
    case isFalse hempty =>
      split
      case isTrue hbl =>
        -- accumulated text is whitespace-only: discarded
        exact pyInv_mk hk1 hnewcur (by omega) (by omega) hchain (by omega) hcontent
          hblank htype (fun _ => ⟨by rw [hline]; exact hm, le_refl _⟩)
          (fun h _ => by simp at h)
      case isFalse hbl =>
        -- flush the pending block
        have hne : s.current_chunk ≠ [] := by
          intro h; rw [h] at hempty; exact hempty rfl
        have hcsk : s.current_start ≤ k := by
          by_contra hlt
          exact hne (hcur.trans ((drop_take_eq_nil_iff hk).mpr (by omega)))
        have hi1 : k + 1 - 1 = k := by omega
        refine pyInv_mk hk1 hnewcur (by omega) (by omega) ?_ ?_ ?_ ?_ ?_
          (fun _ => ⟨by rw [hline]; exact hm, le_refl _⟩) (fun h _ => by simp at h)
        · exact rangesChain_append _ _ _ hchain (by simpa using hlast)
            (by simpa [hi1] using hcsk)
        · rw [lastEndD_append]
          show k + 1 - 1 < k + 1
          omega
        · refine forall_mem_append_singleton hcontent ?_
          show joinLines s.current_chunk = joinRange lines s.current_start (k + 1 - 1)
          rw [hi1, hcur]; rfl
        · refine forall_mem_append_singleton hblank ?_
          show pyBlank (joinLines s.current_chunk) = false
          revert hbl
          cases pyBlank (joinLines s.current_chunk) <;> simp
        · refine forall_mem_append_singleton htype ?_
          right
          exact ⟨hnodef hindef hne, rfl⟩
  case isFalse hcond =>
    split
    case isTrue hindef =>
      -- inside a definition
      have hdefk := hdef hindef
      have hcsk : s.current_start ≤ k := hdefk.2
      have hcurne : s.current_chunk ≠ [] := by
        rw [hcur]
        intro h
        have := (drop_take_eq_nil_iff hk).mp h
        omega
      have hcurappend : s.current_chunk ++ [line]
          = (lines.take (k + 1)).drop (s.current_start - 1) := by
        rw [drop_take_succ_append htake1 hk (by omega), hcur]
      split
      case isTrue hclose =>
        -- dedented new definition start: close the chunk without this line
        simp only [Bool.and_eq_true, decide_eq_true_eq] at hclose
        obtain ⟨⟨⟨hstr, hind⟩, hcsi⟩, hm⟩ := hclose
        have hdropLast : (s.current_chunk ++ [line]).dropLast = s.current_chunk :=
          List.dropLast_concat
        have hhead : (s.current_chunk ++ [line]).headD ""
            = lineAt lines s.current_start := by
          rw [headD_append_left _ hcurne, hcur, headD_drop_take (by omega)]
          rfl
        have hi1 : k + 1 - 1 = k := by omega
        split
        case isTrue hbl =>
          exact pyInv_mk hk1 hnewcur (by omega) (by omega) hchain (by omega)
            hcontent hblank htype (fun _ => ⟨by rw [hline]; exact hm, le_refl _⟩)
            (fun h _ => by simp at h)
        case isFalse hbl =>
          refine pyInv_mk hk1 hnewcur (by omega) (by omega) ?_ ?_ ?_ ?_ ?_
            (fun _ => ⟨by rw [hline]; exact hm, le_refl _⟩) (fun h _ => by simp at h)
          · exact rangesChain_append _ _ _ hchain (by simpa using hlast)
              (by simpa [hi1] using hcsk)
          · rw [lastEndD_append]
            show k + 1 - 1 < k + 1
            omega
          · refine forall_mem_append_singleton hcontent ?_
            show joinLines (s.current_chunk ++ [line]).dropLast
              = joinRange lines s.current_start (k + 1 - 1)
            rw [hdropLast, hi1, hcur]; rfl
          · refine forall_mem_append_singleton hblank ?_
            show pyBlank (joinLines (s.current_chunk ++ [line]).dropLast) = false
            revert hbl
            cases pyBlank (joinLines (s.current_chunk ++ [line]).dropLast) <;> simp
          · refine forall_mem_append_singleton htype ?_
            left
            refine ⟨(hdef hindef).1, ?_⟩
            show pyFirstWord ((s.current_chunk ++ [line]).headD "") = _
            rw [hhead]
      case isFalse hclose =>
        -- keep accumulating
        exact pyInv_mk hk1 hcurappend (by omega) (by omega) hchain (by omega)
          hcontent hblank htype (fun _ => ⟨(hdef hindef).1, by omega⟩)
          (fun h => by simp at h)
    case isFalse hindef =>
      -- outside any definition: plain accumulation
      have hindef' : s.in_definition = false := by
        revert hindef
        cases s.in_definition <;> simp
      have hm' : pyDefMatch (pyLstrip line) = false := by
        revert hcond
        rw [hindef']
        cases pyDefMatch (pyLstrip line) <;> simp
      have hcurappend : s.current_chunk ++ [line]
          = (lines.take (k + 1)).drop (s.current_start - 1) := by
        rw [drop_take_succ_append htake1 hk (by omega), hcur]
      refine pyInv_mk hk1 hcurappend (by omega) (by omega) hchain (by omega)
        hcontent hblank htype (fun h => by simp at h) ?_
      intro _ _
      by_cases hold : s.current_chunk = []
      · have hcse : s.current_start = k + 1 := by
          have := (drop_take_eq_nil_iff hk).mp (hcur ▸ hold)
          omega
        rw [hcse, hline]
        exact hm'
      · exact hnodef hindef' hold

lemma pyLoop_inv (fp lang : String) (lines : List String) :
    ∀ (rest done : List String) (s : PyState), lines = done ++ rest →
      PyInv lines done.length s →
      PyInv lines lines.length (pyLoop fp lang (done.length + 1) rest s)
  | [], done, s, hsplit, inv => by
    have hlen : lines.length = done.length := by rw [hsplit]; simp
    simpa [pyLoop, hlen] using inv
  | line :: rest', done, s, hsplit, inv => by
    have hstep := pyStep_inv fp lang hsplit rfl inv
    have ih := pyLoop_inv fp lang lines rest' (done ++ [line])
      (pyStep fp lang (done.length + 1) line s)
      (by rw [hsplit]; simp) (by simpa using hstep)
    rw [pyLoop]
    simpa using ih

lemma pyFinal_inv (content fp lang : String) :
    PyInv (splitLines content) (splitLines content).length
      (pyLoop fp lang 1 (splitLines content) ⟨[], [], 1, 0, false⟩) := by
  have := pyLoop_inv fp lang (splitLines content) (splitLines content) [] _
    (by simp) (pyInv_init _)
  simpa using this

/-- All the structural facts about the pre-fallback chunk list of
`chunk_python`: a strictly increasing disjoint chain within the file, verbatim
contents, no blank chunk, and, for every chunk but possibly the last, the
`block`-versus-keyword tagging dichotomy. -/
lemma pyCore_props (content fp lang : String) :
    rangesChain 0 (pyCoreChunks content fp lang) = true ∧
    lastEndD 0 (pyCoreChunks content fp lang) ≤ (splitLines content).length ∧
    (∀ c ∈ pyCoreChunks content fp lang,
      c.content = joinRange (splitLines content) c.start_line c.end_line) ∧
    (∀ c ∈ pyCoreChunks content fp lang, pyBlank c.content = false) ∧
    (∀ c ∈ (pyCoreChunks content fp lang).dropLast,
      (pyDefMatch (pyLstrip (lineAt (splitLines content) c.start_line)) = true ∧
        c.chunk_type = pyFirstWord (lineAt (splitLines content) c.start_line)) ∨
      (pyDefMatch (pyLstrip (lineAt (splitLines content) c.start_line)) = false ∧
        c.chunk_type = "block")) := by
  obtain ⟨hk, hcur, hcs1, hcs2, hchain, hlast, hcontent, hblank, htype, hdef, hnodef⟩ :=
    pyFinal_inv content fp lang
  set lines := splitLines content with hlines
  set st := pyLoop fp lang 1 lines ⟨[], [], 1, 0, false⟩ with hst
  have hcoreeq : pyCoreChunks content fp lang =
      (if st.current_chunk.isEmpty then st.chunks
       else if pyBlank (joinLines st.current_chunk) then st.chunks
       else st.chunks ++
        [⟨joinLines st.current_chunk, fp, st.current_start, lines.length, lang,
          "block"⟩]) := rfl
  rw [hcoreeq]
  split
  case isTrue hemp =>
    refine ⟨hchain, by omega, hcontent, hblank, ?_⟩
    intro c hc
    exact htype c (List.dropLast_subset _ hc)
  case isFalse hemp =>
    split
    case isTrue hbl =>
      refine ⟨hchain, by omega, hcontent, hblank, ?_⟩
      intro c hc
      exact htype c (List.dropLast_subset _ hc)
    case isFalse hbl =>
      have hne : st.current_chunk ≠ [] := by
        intro h; rw [h] at hemp; exact hemp rfl
      have hcsk : st.current_start ≤ lines.length := by
        by_contra hlt
        exact hne (hcur.trans ((drop_take_eq_nil_iff (le_refl _)).mpr (by omega)))
      refine ⟨?_, ?_, ?_, ?_, ?_⟩
      · exact rangesChain_append _ _ _ hchain (by simpa using hlast)
          (by simpa using hcsk)
      · rw [lastEndD_append]
      · refine forall_mem_append_singleton hcontent ?_
        show joinLines st.current_chunk = joinRange lines st.current_start lines.length
        rw [hcur]; rfl
      · refine forall_mem_append_singleton hblank ?_
        show pyBlank (joinLines st.current_chunk) = false
        revert hbl
        cases pyBlank (joinLines st.current_chunk) <;> simp
      · rw [List.dropLast_concat]
        exact htype

/-- `chunk_python` returns either the single whole-file fallback chunk or the
pre-fallback chunk list unchanged. -/
lemma chunk_python_cases (content fp lang : String) (mx : Int) :
    chunk_python content fp lang mx
      = [⟨content, fp, 1, (splitLines content).length, lang, "file"⟩] ∨
    chunk_python content fp lang mx = pyCoreChunks content fp lang := by
  simp only [chunk_python]
  split
  · exact Or.inl rfl
  · exact Or.inr rfl

/-! ## The loop invariant of chunk_javascript -/

/-- Invariant of the `chunk_javascript` loop state after `k` processed lines:
the accumulator is the slice of `lines` from `current_start` to `k`, and the
emitted chunks form a strictly increasing disjoint chain below
`current_start`, reproduce their ranges verbatim, and are non-blank. -/
structure JsInv (lines : List String) (k : Nat) (s : JsState) : Prop where
  hk : k ≤ lines.length
  hcur : s.current_chunk = (lines.take k).drop (s.current_start - 1)
  hcs1 : 1 ≤ s.current_start
  hcs2 : s.current_start ≤ k + 1
  hchain : rangesChain 0 s.chunks = true
  hlast : lastEndD 0 s.chunks < s.current_start
  hcontent : ∀ c ∈ s.chunks, c.content = joinRange lines c.start_line c.end_line
  hblank : ∀ c ∈ s.chunks, pyBlank c.content = false

/-- Constructor for `JsInv` at a literal state. -/
lemma jsInv_mk {lines : List String} {k : Nat} {ck : List CodeChunk}
    {cc : List String} {cs : Nat} {bc : Int} {indef : Bool}
    (hk : k ≤ lines.length)
    (hcur : cc = (lines.take k).drop (cs - 1))
    (hcs1 : 1 ≤ cs) (hcs2 : cs ≤ k + 1)
    (hchain : rangesChain 0 ck = true)
    (hlast : lastEndD 0 ck < cs)
    (hcontent : ∀ c ∈ ck, c.content = joinRange lines c.start_line c.end_line)
    (hblank : ∀ c ∈ ck, pyBlank c.content = false) :
    JsInv lines k ⟨ck, cc, cs, bc, indef⟩ :=
  ⟨hk, hcur, hcs1, hcs2, hchain, hlast, hcontent, hblank⟩

lemma jsStep_inv (fp lang : String) {lines done : List String} {line : String}
    {rest : List String} (hsplit : lines = done ++ line :: rest) {k : Nat}
    (hlen : done.length = k) {s : JsState} (inv : JsInv lines k s) :
    JsInv lines (k + 1) (jsStep fp lang (k + 1) line s) := by
  have hk1 : k + 1 ≤ lines.length := by
    subst hsplit; simp [List.length_append]; omega
  have htake : lines.take k = done := by
    subst hsplit hlen; exact List.take_left done (line :: rest)
  have htake1 : lines.take (k + 1) = lines.take k ++ [line] := by
    rw [htake]
    subst hsplit hlen
    have := @List.take_append _ done (line :: rest) 1
    simpa using this
  have hnewcur : [line] = (lines.take (k + 1)).drop ((k + 1) - 1) := by
    rw [Nat.add_sub_cancel, htake1, List.drop_append_of_le_length (by
      rw [List.length_take]; omega)]
    rw [List.drop_eq_nil_iff.mpr (by rw [List.length_take]; omega),
      List.nil_append]
  obtain ⟨hk, hcur, hcs1, hcs2, hchain, hlast, hcontent, hblank⟩ := inv
  have hcurappend : s.current_chunk ++ [line]
      = (lines.take (k + 1)).drop (s.current_start - 1) := by
    rw [drop_take_succ_append htake1 hk (by omega), hcur]
  simp only [jsStep]
  split
  case isTrue hmatch =>
    -- a declaration line
    split
    case isTrue hflush =>
      rw [Bool.and_eq_true, Bool.not_eq_true', Bool.not_eq_true'] at hflush
      obtain ⟨hne', hindef⟩ := hflush
      have hne : s.current_chunk ≠ [] := by
        intro h
        rw [h] at hne'
        cases hne'
      have hcsk : s.current_start ≤ k := by
        by_contra hlt
        exact hne (hcur.trans ((drop_take_eq_nil_iff hk).mpr (by omega)))
      have hi1 : k + 1 - 1 = k := by omega
      split
      case isTrue hbl =>
        exact jsInv_mk hk1 hnewcur (by omega) (by omega) hchain (by omega)
          hcontent hblank
      case isFalse hbl =>
        refine jsInv_mk hk1 hnewcur (by omega) (by omega) ?_ ?_ ?_ ?_
        · exact rangesChain_append _ _ _ hchain (by simpa using hlast)
            (by simpa [hi1] using hcsk)
        · rw [lastEndD_append]
          show k + 1 - 1 < k + 1
          omega
        · refine forall_mem_append_singleton hcontent ?_
          show joinLines s.current_chunk = joinRange lines s.current_start (k + 1 - 1)
          rw [hi1, hcur]; rfl
        · refine forall_mem_append_singleton hblank ?_
          show pyBlank (joinLines s.current_chunk) = false
          revert hbl
          cases pyBlank (joinLines s.current_chunk) <;> simp
    case isFalse hflush =>
      exact jsInv_mk hk1 hnewcur (by omega) (by omega) hchain (by omega)
        hcontent hblank
  case isFalse hmatch =>
    split
    case isTrue hindef =>
      split
      case isTrue hclose =>
        -- brace balance returned to zero: close a function chunk
        split
        case isTrue hbl =>
          refine jsInv_mk hk1 ?_ (by omega) (by omega) hchain (by omega)
            hcontent hblank
          rw [Nat.add_sub_cancel,
            List.drop_eq_nil_iff.mpr (by rw [List.length_take]; omega)]
        case isFalse hbl =>
          refine jsInv_mk hk1 ?_ (by omega) (by omega) ?_ ?_ ?_ ?_
          · rw [Nat.add_sub_cancel,
              List.drop_eq_nil_iff.mpr (by rw [List.length_take]; omega)]
          · exact rangesChain_append _ _ _ hchain (by simpa using hlast)
              (by simpa using hcs2)
          · rw [lastEndD_append]
            show k + 1 < k + 1 + 1
            omega
          · refine forall_mem_append_singleton hcontent ?_
            show joinLines (s.current_chunk ++ [line])
              = joinRange lines s.current_start (k + 1)
            rw [hcurappend]; rfl
          · refine forall_mem_append_singleton hblank ?_
            show pyBlank (joinLines (s.current_chunk ++ [line])) = false
            revert hbl
            cases pyBlank (joinLines (s.current_chunk ++ [line])) <;> simp
      case isFalse hclose =>
        exact jsInv_mk hk1 hcurappend (by omega) (by omega) hchain (by omega)
          hcontent hblank
    case isFalse hindef =>
      exact jsInv_mk hk1 hcurappend (by omega) (by omega) hchain (by omega)
        hcontent hblank

lemma jsLoop_inv (fp lang : String) (lines : List String) :
    ∀ (rest done : List String) (s : JsState), lines = done ++ rest →
      JsInv lines done.length s →
      JsInv lines lines.length (jsLoop fp lang (done.length + 1) rest s)
  | [], done, s, hsplit, inv => by
    have hlen : lines.length = done.length := by rw [hsplit]; simp
    simpa [jsLoop, hlen] using inv
  | line :: rest', done, s, hsplit, inv => by
    have hstep := jsStep_inv fp lang hsplit rfl inv
    have ih := jsLoop_inv fp lang lines rest' (done ++ [line])
      (jsStep fp lang (done.length + 1) line s)
      (by rw [hsplit]; simp) (by simpa using hstep)
    rw [jsLoop]
    simpa using ih

lemma jsInv_init (lines : List String) : JsInv lines 0 ⟨[], [], 1, 0, false⟩ where
  hk := Nat.zero_le _
  hcur := rfl
  hcs1 := le_refl 1
  hcs2 := le_refl 1
  hchain := rfl
  hlast := Nat.zero_lt_one
  hcontent := by intro c hc; exact absurd hc (List.not_mem_nil c)
  hblank := by intro c hc; exact absurd hc (List.not_mem_nil c)

lemma jsFinal_inv (content fp lang : String) :
    JsInv (splitLines content) (splitLines content).length
      (jsLoop fp lang 1 (splitLines content) ⟨[], [], 1, 0, false⟩) := by
  have := jsLoop_inv fp lang (splitLines content) (splitLines content) [] _
    (by simp) (jsInv_init _)
  simpa using this

/-- Structural facts about the pre-fallback chunk list of `chunk_javascript`:
a strictly increasing disjoint chain within the file, verbatim contents, no
blank chunk. -/
lemma jsCore_props (content fp lang : String) :
    rangesChain 0 (jsCoreChunks content fp lang) = true ∧
    lastEndD 0 (jsCoreChunks content fp lang) ≤ (splitLines content).length ∧
    (∀ c ∈ jsCoreChunks content fp lang,
      c.content = joinRange (splitLines content) c.start_line c.end_line) ∧
    (∀ c ∈ jsCoreChunks content fp lang, pyBlank c.content = false) := by
  obtain ⟨hk, hcur, hcs1, hcs2, hchain, hlast, hcontent, hblank⟩ :=
    jsFinal_inv content fp lang
  set lines := splitLines content with hlines
  set st := jsLoop fp lang 1 lines ⟨[], [], 1, 0, false⟩ with hst
  have hcoreeq : jsCoreChunks content fp lang =
      (if st.current_chunk.isEmpty then st.chunks
       else if pyBlank (joinLines st.current_chunk) then st.chunks
       else st.chunks ++
        [⟨joinLines st.current_chunk, fp, st.current_start, lines.length, lang,
          "block"⟩]) := rfl
  rw [hcoreeq]
  split
  case isTrue hemp => exact ⟨hchain, by omega, hcontent, hblank⟩
  case isFalse hemp =>
    split
    case isTrue hbl => exact ⟨hchain, by omega, hcontent, hblank⟩
    case isFalse hbl =>
      have hne : st.current_chunk ≠ [] := by
        intro h; rw [h] at hemp; exact hemp rfl
      have hcsk : st.current_start ≤ lines.length := by
        by_contra hlt
        exact hne (hcur.trans ((drop_take_eq_nil_iff (le_refl _)).mpr (by omega)))
      refine ⟨?_, ?_, ?_, ?_⟩
      · exact rangesChain_append _ _ _ hchain (by simpa using hlast)
          (by simpa using hcsk)
      · rw [lastEndD_append]
      · refine forall_mem_append_singleton hcontent ?_
        show joinLines st.current_chunk = joinRange lines st.current_start lines.length
        rw [hcur]; rfl
      · refine forall_mem_append_singleton hblank ?_
        show pyBlank (joinLines st.current_chunk) = false
        revert hbl
        cases pyBlank (joinLines st.current_chunk) <;> simp

/-- `chunk_javascript` returns either the single whole-file fallback chunk or
the pre-fallback chunk list unchanged. -/
lemma chunk_javascript_cases (content fp lang : String) :
    chunk_javascript content fp lang
      = [⟨content, fp, 1, (splitLines content).length, lang, "file"⟩] ∨
    chunk_javascript content fp lang = jsCoreChunks content fp lang := by
  simp only [chunk_javascript]
  split
  · exact Or.inl rfl
  · exact Or.inr rfl

/-! ## Consequences for the full chunker outputs -/

lemma fallback_chain (content fp lang : String) (total : Nat) (h : 1 ≤ total) :
    rangesChain 0 [(⟨content, fp, 1, total, lang, "file"⟩ : CodeChunk)] = true := by
  simp [rangesChain, h]

lemma chunk_python_chain (content fp lang : String) (mx : Int) :
    rangesChain 0 (chunk_python content fp lang mx) = true := by
  rcases chunk_python_cases content fp lang mx with h | h <;> rw [h]
  · exact fallback_chain content fp lang _ (splitLines_length_pos content)
  · exact (pyCore_props content fp lang).1

lemma chunk_javascript_chain (content fp lang : String) :
    rangesChain 0 (chunk_javascript content fp lang) = true := by
  rcases chunk_javascript_cases content fp lang with h | h <;> rw [h]
  · exact fallback_chain content fp lang _ (splitLines_length_pos content)
  · exact (jsCore_props content fp lang).1

lemma chunk_python_content (content fp lang : String) (mx : Int) :
    ∀ c ∈ chunk_python content fp lang mx,
      c.content = joinRange (splitLines content) c.start_line c.end_line := by
  rcases chunk_python_cases content fp lang mx with h | h <;> rw [h]
  · intro c hc
    rw [List.mem_singleton.mp hc]
    exact (joinRange_whole content).symm
  · exact (pyCore_props content fp lang).2.2.1

lemma chunk_javascript_content (content fp lang : String) :
    ∀ c ∈ chunk_javascript content fp lang,
      c.content = joinRange (splitLines content) c.start_line c.end_line := by
  rcases chunk_javascript_cases content fp lang with h | h <;> rw [h]
  · intro c hc
    rw [List.mem_singleton.mp hc]
    exact (joinRange_whole content).symm
  · exact (jsCore_props content fp lang).2.2.1

lemma chunk_python_bounds (content fp lang : String) (mx : Int) :
    ∀ c ∈ chunk_python content fp lang mx,
      1 ≤ c.start_line ∧ c.start_line ≤ c.end_line ∧
        c.end_line ≤ (splitLines content).length := by
  rcases chunk_python_cases content fp lang mx with h | h <;> rw [h]
  · intro c hc
    rw [List.mem_singleton.mp hc]
    exact ⟨le_refl 1, splitLines_length_pos content, le_refl _⟩
  · intro c hc
    obtain ⟨h1, h2, h3⟩ := pyCore_props content fp lang
    have := rangesChain_mem_bounds _ _ h1 c hc
    omega

lemma chunk_javascript_bounds (content fp lang : String) :
    ∀ c ∈ chunk_javascript content fp lang,
      1 ≤ c.start_line ∧ c.start_line ≤ c.end_line ∧
        c.end_line ≤ (splitLines content).length := by
  rcases chunk_javascript_cases content fp lang with h | h <;> rw [h]
  · intro c hc
    rw [List.mem_singleton.mp hc]
    exact ⟨le_refl 1, splitLines_length_pos content, le_refl _⟩
  · intro c hc
    obtain ⟨h1, h2, h3⟩ := jsCore_props content fp lang
    have := rangesChain_mem_bounds _ _ h1 c hc
    omega

lemma windowChunks_bounds (content fp lang : String) (mx ov : Int)
    (h1 : 0 ≤ ov) (h2 : ov < mx) :
    ∀ c ∈ (chunk_by_lines content fp lang mx ov).getD [],
      1 ≤ c.start_line ∧ c.start_line ≤ c.end_line ∧
        c.end_line ≤ (splitLines content).length := by
  rw [chunk_by_lines_eq_windowSpec content fp lang mx ov h1 h2, Option.getD_some]
  split
  · intro c hc
    rw [List.mem_singleton.mp hc]
    exact ⟨le_refl 1, splitLines_length_pos content, le_refl _⟩
  · intro c hc
    obtain ⟨k, hk, rfl⟩ := mem_windowSpec hc
    have hstep : 0 < (mx - ov).toNat := by omega
    have hks : k * (mx - ov).toNat < (splitLines content).length :=
      (lt_numWindows_iff _ _ _ hstep).mp hk
    exact windowChunkAt_bounds _ fp lang _ _ k (by omega) hks

lemma windowChunks_content (content fp lang : String) (mx ov : Int)
    (h1 : 0 ≤ ov) (h2 : ov < mx) :
    ∀ c ∈ (chunk_by_lines content fp lang mx ov).getD [],
      c.content = joinRange (splitLines content) c.start_line c.end_line := by
  rw [chunk_by_lines_eq_windowSpec content fp lang mx ov h1 h2, Option.getD_some]
  split
  · intro c hc
    rw [List.mem_singleton.mp hc]
    exact (joinRange_whole content).symm
  · intro c hc
    obtain ⟨k, hk, rfl⟩ := mem_windowSpec hc
    exact windowChunkAt_content _ fp lang _ _ k

lemma windowChunks_covers (content fp lang : String) (mx ov : Int)
    (h1 : 0 ≤ ov) (h2 : ov < mx) :
    coversAllLines (splitLines content).length
      ((chunk_by_lines content fp lang mx ov).getD []) = true := by
  rw [chunk_by_lines_eq_windowSpec content fp lang mx ov h1 h2, Option.getD_some]
  rw [coversAllLines, List.all_eq_true]
  intro j hj
  have hj' := List.mem_range'_1.mp hj
  rw [List.any_eq_true]
  split
  · exact ⟨_, List.mem_singleton.mpr rfl, by
      simp only [Bool.and_eq_true, decide_eq_true_eq]
      omega⟩
  case isFalse h =>
    have hstep : 0 < (mx - ov).toNat := by omega
    have hmxs : (mx - ov).toNat ≤ mx.toNat := by omega
    obtain ⟨c, hc, hcov⟩ := windowSpec_covers (splitLines content) fp lang
      mx.toNat (mx - ov).toNat hstep hmxs j (by omega) (by omega)
    exact ⟨c, hc, by
      simp only [Bool.and_eq_true, decide_eq_true_eq]
      omega⟩

lemma windowChunks_stepped (content fp lang : String) (mx ov : Int)
    (h1 : 0 ≤ ov) (h2 : ov < mx) :
    startsStepped (mx - ov).toNat
      ((chunk_by_lines content fp lang mx ov).getD []) = true := by
  rw [chunk_by_lines_eq_windowSpec content fp lang mx ov h1 h2, Option.getD_some]
  split
  · rfl
  · exact windowSpec_stepped (splitLines content) fp lang mx.toNat (mx - ov).toNat

/-! ## The claims -/

/-- C1 (counterexample): the emitted ranges do not always cover the file.
On the 4-line file `"\n\nfunction foo() {\n}"` the brace-variant chunker
discards the whitespace-only accumulation for lines 1-2 (the flush is guarded
by `chunk_content.strip()`), so the only emitted chunk spans lines 3-4 and
lines 1-2 are covered by nothing. -/
theorem c1_coverage_counterexample :
    (chunk_javascript "\n\nfunction foo() \x7b\n\x7d" "f" "javascript").map
      (fun c => (c.start_line, c.end_line)) = [(3, 4)] ∧
    (splitLines "\n\nfunction foo() \x7b\n\x7d").length = 4 ∧
    coversAllLines 4 (chunk_javascript "\n\nfunction foo() \x7b\n\x7d" "f" "javascript")
      = false := by
  refine ⟨by decide, by decide, by decide⟩

/-- C1 (amended): the emitted ranges of `chunk_python` and `chunk_javascript`,
in emission order, are strictly increasing and pairwise disjoint (no
duplication), but gaps may remain where an accumulated segment was discarded
(whitespace-only flushes in both chunkers, and accumulations overwritten by a
nested definition start in `chunk_javascript`); `chunk_by_lines` under a valid
configuration covers every line of `[1, total_lines]` with no gaps, the only
duplication being the deliberate sliding-window overlap, consecutive windows
advancing by exactly `max_chunk_size - overlap`. -/
theorem c1_amended_range_discipline (cp cj cw fp lang : String) (mx ov : Int)
    (h1 : 0 ≤ ov) (h2 : ov < mx) :
    rangesChain 0 (chunk_python cp fp lang mx) = true ∧
    rangesChain 0 (chunk_javascript cj fp lang) = true ∧
    coversAllLines (splitLines cw).length
      ((chunk_by_lines cw fp lang mx ov).getD []) = true ∧
    startsStepped (mx - ov).toNat ((chunk_by_lines cw fp lang mx ov).getD [])
      = true :=
  ⟨chunk_python_chain cp fp lang mx, chunk_javascript_chain cj fp lang,
    windowChunks_covers cw fp lang mx ov h1 h2,
    windowChunks_stepped cw fp lang mx ov h1 h2⟩

/-- C1 (witness for the amended theorem at concrete inputs). -/
theorem c1_amended_range_discipline_witness :
    (0 : Int) ≤ 1 ∧ (1 : Int) < 2 ∧
    (rangesChain 0 (chunk_python "def f():\n    1" "f.py" "python" 2) = true ∧
     rangesChain 0 (chunk_javascript "var x = 1" "f.py" "python") = true ∧
     coversAllLines (splitLines "a\nb\nc\nd\ne").length
       ((chunk_by_lines "a\nb\nc\nd\ne" "f.py" "python" 2 1).getD []) = true ∧
     startsStepped ((2 : Int) - 1).toNat
       ((chunk_by_lines "a\nb\nc\nd\ne" "f.py" "python" 2 1).getD []) = true) :=
  ⟨by decide, by decide,
    c1_amended_range_discipline "def f():\n    1" "var x = 1" "a\nb\nc\nd\ne"
      "f.py" "python" 2 1 (by decide) (by decide)⟩

/-- C2 (confirmed): for every chunk emitted by any of the three chunkers, the
chunk's `content` equals the exact newline-join of the source file's lines
from `start_line` to `end_line` inclusive. -/
theorem c2_content_fidelity (content fp lang : String) (mx ov : Int)
    (h1 : 0 ≤ ov) (h2 : ov < mx) :
    ((chunk_python content fp lang mx).all fun c =>
      c.content == joinRange (splitLines content) c.start_line c.end_line) = true ∧
    ((chunk_javascript content fp lang).all fun c =>
      c.content == joinRange (splitLines content) c.start_line c.end_line) = true ∧
    (((chunk_by_lines content fp lang mx ov).getD []).all fun c =>
      c.content == joinRange (splitLines content) c.start_line c.end_line) = true := by
  refine ⟨?_, ?_, ?_⟩ <;> rw [List.all_eq_true] <;> intro c hc
  · exact beq_iff_eq.mpr (chunk_python_content content fp lang mx c hc)
  · exact beq_iff_eq.mpr (chunk_javascript_content content fp lang c hc)
  · exact beq_iff_eq.mpr (windowChunks_content content fp lang mx ov h1 h2 c hc)

/-- C2 (witness at a concrete input and configuration). -/
theorem c2_content_fidelity_witness :
    (0 : Int) ≤ 1 ∧ (1 : Int) < 2 ∧
    (((chunk_python "def f():\n    1\nx = 2" "f.py" "python" 2).all fun c =>
      c.content == joinRange (splitLines "def f():\n    1\nx = 2")
        c.start_line c.end_line) = true ∧
    ((chunk_javascript "def f():\n    1\nx = 2" "f.py" "python").all fun c =>
      c.content == joinRange (splitLines "def f():\n    1\nx = 2")
        c.start_line c.end_line) = true ∧
    (((chunk_by_lines "def f():\n    1\nx = 2" "f.py" "python" 2 1).getD []).all fun c =>
      c.content == joinRange (splitLines "def f():\n    1\nx = 2")
        c.start_line c.end_line) = true) :=
  ⟨by decide, by decide,
    c2_content_fidelity "def f():\n    1\nx = 2" "f.py" "python" 2 1
      (by decide) (by decide)⟩

/-- C6 (confirmed): under a valid configuration, every chunk emitted by any
of the three chunkers satisfies `1 ≤ start_line ≤ end_line ≤ total_lines`;
no chunk's range lies outside the file. -/
theorem c6_line_bounds (content fp lang : String) (mx ov : Int)
    (h1 : 0 ≤ ov) (h2 : ov < mx) :
    ((chunk_python content fp lang mx).all
      (boundsOk (splitLines content).length)) = true ∧
    ((chunk_javascript content fp lang).all
      (boundsOk (splitLines content).length)) = true ∧
    (((chunk_by_lines content fp lang mx ov).getD []).all
      (boundsOk (splitLines content).length)) = true := by
  refine ⟨?_, ?_, ?_⟩ <;> rw [List.all_eq_true] <;> intro c hc <;>
    simp only [boundsOk, Bool.and_eq_true, decide_eq_true_eq]
  · have h := chunk_python_bounds content fp lang mx c hc
    exact ⟨⟨h.1, h.2.1⟩, h.2.2⟩
  · have h := chunk_javascript_bounds content fp lang c hc
    exact ⟨⟨h.1, h.2.1⟩, h.2.2⟩
  · have h := windowChunks_bounds content fp lang mx ov h1 h2 c hc
    exact ⟨⟨h.1, h.2.1⟩, h.2.2⟩

/-- C6 (witness at a concrete input and configuration). -/
theorem c6_line_bounds_witness :
    (0 : Int) ≤ 1 ∧ (1 : Int) < 2 ∧
    (((chunk_python "def f():\n    1\nx = 2" "f.py" "python" 2).all
      (boundsOk (splitLines "def f():\n    1\nx = 2").length)) = true ∧
    ((chunk_javascript "def f():\n    1\nx = 2" "f.py" "python").all
      (boundsOk (splitLines "def f():\n    1\nx = 2").length)) = true ∧
    (((chunk_by_lines "def f():\n    1\nx = 2" "f.py" "python" 2 1).getD []).all
      (boundsOk (splitLines "def f():\n    1\nx = 2").length)) = true) :=
  ⟨by decide, by decide,
    c6_line_bounds "def f():\n    1\nx = 2" "f.py" "python" 2 1
      (by decide) (by decide)⟩

/-- C9 (confirmed): for every input and every configuration with
`0 ≤ overlap < max_chunk_size`, the window chunker terminates (the loop index
advances by the positive stride `max_chunk_size - overlap` each iteration, so
fuel `lines.length` always suffices and the model returns `some`). -/
theorem c9_window_terminates (content fp lang : String) (mx ov : Int)
    (h1 : 0 ≤ ov) (h2 : ov < mx) :
    (chunk_by_lines content fp lang mx ov).isSome = true := by
  rw [chunk_by_lines_eq_windowSpec content fp lang mx ov h1 h2]
  rfl

/-- C9 (witness at a concrete input and configuration). -/
theorem c9_window_terminates_witness :
    (0 : Int) ≤ 10 ∧ (10 : Int) < 50 ∧
    (chunk_by_lines "a\nb\nc" "f" "text" 50 10).isSome = true :=
  ⟨by decide, by decide,
    c9_window_terminates "a\nb\nc" "f" "text" 50 10 (by decide) (by decide)⟩

/-- C10 (confirmed): every chunk returned by `chunk_python` or
`chunk_javascript`, other than the single whole-file fallback chunk, has
content containing at least one non-whitespace character (whitespace-only
accumulations are silently discarded), while `chunk_by_lines` applies no such
filter: on `"a\n\n\n\nb"` with window 2 and overlap 0 it emits a
whitespace-only `block` chunk. -/
theorem c10_no_blank_structural_chunks (cp cj fp lang : String) (mx : Int) :
    (chunk_python cp fp lang mx
        = [⟨cp, fp, 1, (splitLines cp).length, lang, "file"⟩] ∨
      (chunk_python cp fp lang mx).all (fun c => !(pyBlank c.content)) = true) ∧
    (chunk_javascript cj fp lang
        = [⟨cj, fp, 1, (splitLines cj).length, lang, "file"⟩] ∨
      (chunk_javascript cj fp lang).all (fun c => !(pyBlank c.content)) = true) ∧
    ((chunk_by_lines "a\n\n\n\nb" "f" "text" 2 0).getD []).any
      (fun c => pyBlank c.content && (c.chunk_type == "block")) = true := by
  refine ⟨?_, ?_, by decide⟩
  · rcases chunk_python_cases cp fp lang mx with h | h
    · exact Or.inl h
    · refine Or.inr ?_
      rw [h, List.all_eq_true]
      intro c hc
      have := (pyCore_props cp fp lang).2.2.2.1 c hc
      simp [this]
  · rcases chunk_javascript_cases cj fp lang with h | h
    · exact Or.inl h
    · refine Or.inr ?_
      rw [h, List.all_eq_true]
      intro c hc
      have := (jsCore_props cj fp lang).2.2.2 c hc
      simp [this]

/-- C5 (confirmed): under a valid configuration, a file of at most
`max_chunk_size` lines yields exactly one whole-file `file` chunk; a longer
file yields one `block` chunk per sliding window, each window of
`max_chunk_size` lines with its start advancing by exactly
`max_chunk_size - overlap`, the final window clipped at end-of-file; with
`max_chunk_size = 50`, `overlap = 10` on a 120-line file, the three windows
start at lines 1, 41, 81 and end at 50, 90, 120. -/
theorem c5_window_algorithm (content fp lang : String) (mx ov : Int)
    (h1 : 0 ≤ ov) (h2 : ov < mx) :
    (chunk_by_lines content fp lang mx ov =
      some (if ((splitLines content).length : Int) ≤ mx then
              [⟨content, fp, 1, (splitLines content).length, lang, "file"⟩]
            else windowSpec (splitLines content) fp lang mx.toNat
              (mx - ov).toNat)) ∧
    (chunk_by_lines (joinLines (List.replicate 120 "x")) "f" "text" 50 10).map
      (List.map CodeChunk.start_line) = some [1, 41, 81] ∧
    (chunk_by_lines (joinLines (List.replicate 120 "x")) "f" "text" 50 10).map
      (List.map CodeChunk.end_line) = some [50, 90, 120] :=
  ⟨chunk_by_lines_eq_windowSpec content fp lang mx ov h1 h2, by decide, by decide⟩

/-- C5 (witness at a concrete input and configuration). -/
theorem c5_window_algorithm_witness :
    (0 : Int) ≤ 10 ∧ (10 : Int) < 50 ∧
    (chunk_by_lines "a\nb\nc" "f" "text" 50 10 =
      some (if ((splitLines "a\nb\nc").length : Int) ≤ 50 then
              [⟨"a\nb\nc", "f", 1, (splitLines "a\nb\nc").length, "text", "file"⟩]
            else windowSpec (splitLines "a\nb\nc") "f" "text" (50 : Int).toNat
              ((50 : Int) - 10).toNat)) :=
  ⟨by decide, by decide,
    (c5_window_algorithm "a\nb\nc" "f" "text" 50 10 (by decide) (by decide)).1⟩

/-- C4 (counterexample): the small-file threshold is measured in characters,
not lines.  The 3-line file `"def foo():\n    aaaa\n    bbbb"` has 3 lines,
below a `max_chunk_size` of 10, and `chunk_python` produces exactly one
structural chunk for it; yet the result is that single chunk with type
`block`, not the whole-file `file` chunk the claim requires, because the
file's character count (28) is not below 10. -/
theorem c4_linecount_counterexample :
    (splitLines "def foo():\n    aaaa\n    bbbb").length = 3 ∧
    "def foo():\n    aaaa\n    bbbb".length = 28 ∧
    (pyCoreChunks "def foo():\n    aaaa\n    bbbb" "f" "python").length = 1 ∧
    (chunk_python "def foo():\n    aaaa\n    bbbb" "f" "python" 10).map
      CodeChunk.chunk_type = ["block"] := by
  refine ⟨by decide, by decide, by decide, by decide⟩

/-- C4 (amended): if the structural pass produced zero chunks, or produced
exactly one chunk and the whole file's size measured in characters
(`len(content)`) is below `max_chunk_size`, the result is a single chunk of
type `file` covering the entire file. -/
theorem c4_amended_small_file_merge (content fp lang : String) (mx : Int)
    (h : pyCoreChunks content fp lang = [] ∨
      ((pyCoreChunks content fp lang).length = 1 ∧ (content.length : Int) < mx)) :
    chunk_python content fp lang mx
      = [⟨content, fp, 1, (splitLines content).length, lang, "file"⟩] := by
  have hcond : ((pyCoreChunks content fp lang).isEmpty ||
      ((pyCoreChunks content fp lang).length == 1 &&
        decide ((content.length : Int) < mx))) = true := by
    rcases h with h | ⟨hl, hs⟩
    · simp [h]
    · simp [hl, hs]
  simp only [chunk_python]
  rw [if_pos hcond]

/-- C4 (witness: the claim's 5-line `def foo():` file below the threshold
returns exactly one chunk of type `file` spanning all 5 lines). -/
theorem c4_amended_small_file_merge_witness :
    (splitLines "def foo():\n    a = 1\n    return a\n\n").length = 5 ∧
    (pyCoreChunks "def foo():\n    a = 1\n    return a\n\n" "f.py" "python").length
      = 1 ∧
    ("def foo():\n    a = 1\n    return a\n\n".length : Int) < 1000 ∧
    chunk_python "def foo():\n    a = 1\n    return a\n\n" "f.py" "python" 1000
      = [⟨"def foo():\n    a = 1\n    return a\n\n", "f.py", 1,
          (splitLines "def foo():\n    a = 1\n    return a\n\n").length,
          "python", "file"⟩] :=
  ⟨by decide, by decide, by decide,
    c4_amended_small_file_merge "def foo():\n    a = 1\n    return a\n\n"
      "f.py" "python" 1000 (Or.inr ⟨by decide, by decide⟩)⟩

/-- C7 (counterexample): the final end-of-file flush always tags its chunk
`block`, even when that chunk starts on a definition line.  On
`"x = 1\ndef foo():\n    pass"` the second emitted chunk starts at line 2,
whose stripped text matches the definition pattern with first word `def`, yet
its `chunk_type` is `block`. -/
theorem c7_def_tagging_counterexample :
    pyDefMatch (pyLstrip (lineAt (splitLines "x = 1\ndef foo():\n    pass") 2))
      = true ∧
    pyFirstWord (lineAt (splitLines "x = 1\ndef foo():\n    pass") 2) = "def" ∧
    (chunk_python "x = 1\ndef foo():\n    pass" "f" "python" 10).map
      (fun c => (c.start_line, c.chunk_type)) = [(1, "block"), (2, "block")] := by
  refine ⟨by decide, by decide, by decide⟩

/-- C7 (amended): in `chunk_python`, every emitted chunk except possibly the
last one obeys the tagging dichotomy: a chunk whose first line is a
definition start (these are exactly the chunks closed by the arrival of a new
definition start) has `chunk_type` equal to the first word of that line, and
a chunk whose first line is not a definition start is tagged `block`; the
final flushed chunk is tagged `block` (and the whole-file fallback `file`)
regardless of its first line. -/
theorem c7_amended_def_tagging (content fp lang : String) (mx : Int) :
    ((chunk_python content fp lang mx).dropLast.all fun c =>
      if pyDefMatch (pyLstrip (lineAt (splitLines content) c.start_line))
      then c.chunk_type == pyFirstWord (lineAt (splitLines content) c.start_line)
      else c.chunk_type == "block") = true := by
  rw [List.all_eq_true]
  intro c hc
  rcases chunk_python_cases content fp lang mx with h | h
  · rw [h] at hc
    simp at hc
  · rw [h] at hc
    have hd := (pyCore_props content fp lang).2.2.2.2 c hc
    show (if pyDefMatch (pyLstrip (lineAt (splitLines content) c.start_line))
      then c.chunk_type == pyFirstWord (lineAt (splitLines content) c.start_line)
      else c.chunk_type == "block") = true
    rcases hd with ⟨hm, ht⟩ | ⟨hm, ht⟩
    · rw [if_pos hm]
      exact beq_iff_eq.mpr ht
    · rw [if_neg (by simp [hm])]
      exact beq_iff_eq.mpr ht

/-- C3 (code bug evidence): `CodeParser.__init__` stores its arguments with
no validation, so the misconfiguration `overlap = max_chunk_size = 10` is
accepted at construction time; on an 11-line file the window loop's index
then advances by 0 each iteration, so the loop never terminates: the model
returns `none` for every amount of fuel, where the claim requires
construction to have failed fast instead. -/
theorem c3_no_construction_validation :
    (CodeParser.mk 10 10).max_chunk_size = 10 ∧
    (CodeParser.mk 10 10).overlap = 10 ∧
    (∀ (fuel : Nat) (acc : List CodeChunk),
      chunkByLinesAux (splitLines "a\nb\nc\nd\ne\nf\ng\nh\ni\nj\nk")
        "f" "text" 10 10 fuel 0 acc = none) ∧
    chunk_by_lines "a\nb\nc\nd\ne\nf\ng\nh\ni\nj\nk" "f" "text" 10 10 = none ∧
    parse_file (CodeParser.mk 10 10) "a\nb\nc\nd\ne\nf\ng\nh\ni\nj\nk" "notes.txt"
      = none := by
  refine ⟨rfl, rfl, ?_, by decide, by decide⟩
  intro fuel acc
  exact chunkByLinesAux_diverges _ "f" "text" 10 10 (by decide) fuel 0 acc (by decide)

/-- C8 (code bug evidence): `SKIP_EXTENSIONS` lists `.min.js`, but
`parse_repository` tests membership of the pathlib suffix, and the suffix of
`bundle.min.js` is `.js`, which is not in the set — so the minified bundle is
not skipped: it is parsed as JavaScript and yields one chunk, where the claim
requires zero.  Single-part entries such as `.map` are skipped as claimed. -/
theorem c8_minjs_not_skipped :
    ".min.js" ∈ SKIP_EXTENSIONS ∧
    pyLower (pySuffix "bundle.min.js") = ".js" ∧
    SKIP_EXTENSIONS.contains (pyLower (pySuffix "bundle.min.js")) = false ∧
    parse_repository ⟨1000, 100⟩ [("bundle.min.js", "var x = 1")]
      = some [⟨"var x = 1", "bundle.min.js", 1, 1, "javascript", "block"⟩] ∧
    parse_repository ⟨1000, 100⟩ [("assets/app.js.map", "mapping data")]
      = some [] := by
  refine ⟨by decide, by decide, by decide, by decide, by decide⟩
